import Mathlib

/-!
# Verification of the Twins testcase generator

Shallow embedding of `scripts/twins_generator/generator.py` and proofs of the
spec's claims about it.  Python lists become Lean `List`s, Python `assert`
failures and exceptions become `Option.none`, Python integers become `Nat`/`Int`.
-/

/-- A block of a partition: a list of node indices. -/
abbrev Block := List Nat

/-- A partition: a list of blocks. -/
abbrev Partition := List Block

/-- A scenario: a `(leader, partition)` pair, as yielded by
`combine_partitions_with_leaders`. -/
abbrev Scenario := Nat × Partition

/-- A testcase: a tuple of scenarios, one per round. -/
abbrev Testcase := List Scenario

/-- Embedding of the `Configs` class fields. -/
structure Configs where
  number_of_nodes : Nat
  number_of_partitions : Nat
  number_of_rounds : Nat
deriving DecidableEq, Repr

/-- The validation performed by the `Configs` constructor: all three counts
must be strictly positive (`number_of_nodes > 0` etc.). -/
def configs_ok (c : Configs) : Prop :=
  0 < c.number_of_nodes ∧ 0 < c.number_of_partitions ∧ 0 < c.number_of_rounds

instance (c : Configs) : Decidable (configs_ok c) := by
  unfold configs_ok; infer_instance

/-- `self.f = (number_of_nodes - 1) // 3`. -/
def gen_f (c : Configs) : Nat := (c.number_of_nodes - 1) / 3

/-- `self.nodes = [x for x in range(number_of_nodes + f)]`. -/
def nodes (c : Configs) : List Nat := List.range (c.number_of_nodes + gen_f c)

/-- The validation performed by the `Generator` constructor on the configs:
the `Configs` checks, plus `len(self.nodes) >= number_of_partitions`. -/
def generator_ok (c : Configs) : Prop :=
  configs_ok c ∧ c.number_of_partitions ≤ (nodes c).length

instance (c : Configs) : Decidable (generator_ok c) := by
  unfold generator_ok; infer_instance

/-- `target_nodes = self.nodes[:self.f]`. -/
def target_nodes (c : Configs) : List Nat := (nodes c).take (gen_f c)

/-- `honest_nodes = self.nodes[self.f:number_of_nodes]`. -/
def honest_nodes (c : Configs) : List Nat :=
  ((nodes c).take c.number_of_nodes).drop (gen_f c)

/-- `twin_nodes = self.nodes[number_of_nodes:]`. -/
def twin_nodes (c : Configs) : List Nat := (nodes c).drop c.number_of_nodes

/-- `get_twin`: `assert node in self.target_nodes` then
`return self.nodes[number_of_nodes + node]`.  The assertion failure (and a
hypothetical out-of-range index) is `none`. -/
def get_twin (c : Configs) (node : Nat) : Option Nat :=
  if node ∈ target_nodes c then (nodes c)[c.number_of_nodes + node]? else none

/-- `Generator.S`: the closed-form Stirling number of the second kind,
`sum([(-1)**i * (f(k)//f(i)//f(k-i)) * (k-i)**n for i in range(k+1)]) // f(k)`,
guarded by `assert n > 0 and k > 0 and n >= k`.  Python's `//` on `int` is
floor division, embedded as `Int.fdiv`. -/
def S (n k : Nat) : Option Int :=
  if 0 < n ∧ 0 < k ∧ k ≤ n then
    some (Int.fdiv
      (((List.range (k + 1)).map (fun i =>
        (-1 : Int) ^ i * ((Nat.factorial k / Nat.factorial i /
          Nat.factorial (k - i) : Nat) : Int) * ((k - i : Nat) : Int) ^ n)).sum)
      (Nat.factorial k))
  else none

/-- `partition[j] += [x]`: append `x` at the end of block `j` of a partition
(out-of-range `j` leaves the partition unchanged; all call sites use `j`
in range). -/
def appendAt : Partition → Nat → Nat → Partition
  | [], _, _ => []
  | b :: bs, 0, x => (b ++ [x]) :: bs
  | b :: bs, j + 1, x => b :: appendAt bs j x

/-- The inner recursive `stirling2(n, k)` of `make_partitions`:
`assert n > 0 and k > 0`; base cases `k == 1` and `k == n`; otherwise
append `[n-1]` as a new block to every `(n-1, k-1)`-partition, and for each
`j < k` insert `n-1` into block `j` of a fresh copy of every
`(n-1, k)`-partition; concatenate.  Assertion failures are `none`. -/
def stirling2 : Nat → Nat → Option (List Partition)
  | 0, _ => none
  | n + 1, k =>
    if k = 0 then none
    else if k = 1 then some [[List.range (n + 1)]]
    else if k = n + 1 then some [(List.range (n + 1)).map (fun x => [x])]
    else do
      let a ← stirling2 n (k - 1)
      let tmp ← stirling2 n k
      some ((a.map (fun p => p ++ [[n]])) ++
        (List.range k).flatMap (fun j => tmp.map (fun p => appendAt p j n)))

/-- `make_partitions = stirling2(len(self.nodes), number_of_partitions)`. -/
def make_partitions (c : Configs) : Option (List Partition) :=
  stirling2 (nodes c).length c.number_of_partitions

/-- `combine_partitions_with_leaders`: for each partition, for each target
node, yield `(leader, partition)`. -/
def combine_partitions_with_leaders (c : Configs) (parts : List Partition) :
    List Scenario :=
  parts.flatMap (fun p => (target_nodes c).map (fun leader => (leader, p)))

/-- `itertools.product(l, repeat=r)`: all tuples of length `r` over `l`,
rightmost position varying fastest. -/
def product_repeat (l : List α) : Nat → List (List α)
  | 0 => [[]]
  | r + 1 => l.flatMap (fun x => (product_repeat l r).map (fun t => x :: t))

/-- `combine_scenarios_with_rounds = product(scenarios, repeat=number_of_rounds)`. -/
def combine_scenarios_with_rounds (c : Configs) (scenarios : List Scenario) :
    List Testcase :=
  product_repeat scenarios c.number_of_rounds

/-- `testcases_length`: `S(len(nodes), partitions) * len(target_nodes)`
raised to `number_of_rounds` (propagating `S`'s assertion failure). -/
def testcases_length (c : Configs) : Option Int :=
  (S (nodes c).length c.number_of_partitions).map
    (fun total => (total * ((target_nodes c).length : Int)) ^ c.number_of_rounds)

/-- The full lazy pipeline of `Generator.run` before sharding:
partitions, then scenarios, then the round product. -/
def testcases_seq (c : Configs) : Option (List Testcase) :=
  (make_partitions c).map (fun parts =>
    combine_scenarios_with_rounds c (combine_partitions_with_leaders c parts))

/-- Child `i` of `more_itertools.distribute`: the elements whose position
(counted from `pos`) is congruent to `i` modulo `n`. -/
def mod_child (n i : Nat) : List α → Nat → List α
  | [], _ => []
  | x :: xs, pos =>
    if pos % n = i then x :: mod_child n i xs (pos + 1)
    else mod_child n i xs (pos + 1)

/-- `more_itertools.distribute(n, l)`: round-robin split of `l` into `n`
children; child `i` receives the elements at positions `i, i+n, i+2n, …`. -/
def distribute (n : Nat) (l : List α) : List (List α) :=
  (List.range n).map (fun i => mod_child n i l 0)

/-- Fuel-driven worker for `ichunked`; the fuel `l.length` suffices whenever
the chunk size is positive. -/
def chunked_go : Nat → List α → Nat → List (List α)
  | 0, _, _ => []
  | _, [], _ => []
  | fuel + 1, x :: xs, size => (x :: xs).take size :: chunked_go fuel ((x :: xs).drop size) size

/-- `more_itertools.ichunked(l, size)`: break `l` into consecutive chunks of
`size` elements each (the last chunk may be shorter).  Meaningful for
`size > 0`, as at every call site. -/
def ichunked (l : List α) (size : Nat) : List (List α) :=
  chunked_go l.length l size

/-- `math.ceil(a / b)` for non-negative integers, computed exactly. -/
def ceil_div (a b : Nat) : Nat := (a + b - 1) / b

/-- The default inclusion filter: Python's `bool` applied to a testcase
tuple, i.e. `True` exactly when the tuple is non-empty. -/
def default_filter (t : Testcase) : Bool := !t.isEmpty

/-- The structured content of one serialized output record built by
`Format.make`: the three header counts, the round-indexed proposer map and
the round-indexed partition map. -/
structure Record where
  rounds : Nat
  nodes_count : Nat
  partitions_count : Nat
  round_proposers : List (Nat × List Nat)
  round_partitions : List (Nat × Partition)
deriving DecidableEq, Repr

/-- `Format.make`: for each round, the leader list is `[leader]` plus the
leader's twin when the leader is a target node; partitions are kept as-is,
both maps keyed by round number in enumeration order. -/
def format_make (c : Configs) (t : Testcase) : Record :=
  { rounds := c.number_of_rounds
    nodes_count := c.number_of_nodes
    partitions_count := c.number_of_partitions
    round_proposers := t.enum.map (fun rs =>
      (rs.1, rs.2.1 ::
        (if rs.2.1 ∈ target_nodes c then (get_twin c rs.2.1).toList else [])))
    round_partitions := t.enum.map (fun rs => (rs.1, rs.2.2)) }

/-- Embedding of the `Generator` constructor arguments relevant to sharding
and file layout. -/
structure Generator where
  configs : Configs
  testcases_per_file : Nat
  machine_index : Nat
  number_of_machines : Nat
deriving DecidableEq, Repr

/-- `Generator._print` for one worker: chunk the worker's sub-sequence with
`ichunked(testcases, ceil(testcases_length / testcases_per_file))`, then in
each chunk keep the testcases accepted by the filter and format them.  Each
inner list is the record content of one output file. -/
def print_worker (g : Generator) (filt : Testcase → Bool)
    (worker_tc : List Testcase) : Option (List (List Record)) :=
  (testcases_length g.configs).map (fun total =>
    let num_of_chunks := ceil_div total.toNat g.testcases_per_file
    (ichunked worker_tc num_of_chunks).map (fun chunk =>
      (chunk.filter filt).map (format_make g.configs)))

/-- `Generator.run` down to file contents: build the testcase sequence,
distribute it over machines, take this machine's share, distribute it over
`workers` workers, and run `_print` on each worker's share.  Result: for
each worker, the list of files, each file a list of records. -/
def run_files (g : Generator) (filt : Testcase → Bool) (workers : Nat) :
    Option (List (List (List Record))) := do
  let tc ← testcases_seq g.configs
  let machine_share := (distribute g.number_of_machines tc).getD (g.machine_index - 1) []
  let shares := distribute workers machine_share
  (shares.mapM (fun share => print_worker g filt share))

/-! ## Basic facts about the node taxonomy -/

theorem target_nodes_eq_range (c : Configs) : target_nodes c = List.range (gen_f c) := by
  simp [target_nodes, nodes, List.take_range, Nat.min_eq_left (Nat.le_add_left _ _)]

theorem mem_target_nodes (c : Configs) (node : Nat) :
    node ∈ target_nodes c ↔ node < gen_f c := by
  simp [target_nodes_eq_range, List.mem_range]

/-- **C6.** `get_twin` succeeds with `numberOfNodes + node` on every node of
the target range `[0, f)`, and fails (assertion violation, i.e. `none`) on
every node outside it. -/
theorem get_twin_correct (c : Configs) (node : Nat) :
    (node < gen_f c → get_twin c node = some (c.number_of_nodes + node)) ∧
    (gen_f c ≤ node → get_twin c node = none) := by
  constructor
  · intro h
    have hmem : node ∈ target_nodes c := (mem_target_nodes c node).mpr h
    have hlt : c.number_of_nodes + node < c.number_of_nodes + gen_f c :=
      Nat.add_lt_add_left h _
    simp [get_twin, hmem, nodes, List.getElem?_range hlt]
  · intro h
    have hmem : node ∉ target_nodes c := by
      simp [mem_target_nodes, Nat.not_lt.mpr h]
    simp [get_twin, hmem]

/-- Witness for `get_twin_correct`: with 4 nodes (`f = 1`), node 0 has twin
4 and node 1 is rejected. -/
theorem get_twin_correct_witness :
    get_twin ⟨4, 2, 1⟩ 0 = some 4 ∧ get_twin ⟨4, 2, 1⟩ 1 = none :=
  ⟨(get_twin_correct ⟨4, 2, 1⟩ 0).1 (by decide),
   (get_twin_correct ⟨4, 2, 1⟩ 1).2 (by decide)⟩

/-! ## The partition enumerator: precondition failures -/

/-- **C7.** Whenever `¬ (n ≥ k ≥ 1)` — so `k = 0`, `n = 0`, or `k > n` — the
recursive enumerator fails an assertion (possibly deep in the recursion) and
returns no value at all: the result is `none`, never a silent empty list. -/
theorem stirling2_precondition_failure :
    ∀ n k : Nat, ¬(1 ≤ k ∧ k ≤ n) → stirling2 n k = none := by
  intro n
  induction n with
  | zero => intro k _; rfl
  | succ n ih =>
    intro k h
    push_neg at h
    rcases Nat.eq_zero_or_pos k with hk0 | hk1
    · subst hk0; simp [stirling2]
    · have hgt : n + 1 < k := h hk1
      have hk_ne0 : k ≠ 0 := Nat.pos_iff_ne_zero.mp hk1
      have hk_ne1 : k ≠ 1 := by omega
      have hk_ne : k ≠ n + 1 := by omega
      have hrec : stirling2 n (k - 1) = none := by
        apply ih
        intro ⟨h1, h2⟩
        omega
      simp [stirling2, hk_ne0, hk_ne1, hk_ne, hrec]

/-- Witness for `stirling2_precondition_failure` at `(n, k) = (2, 3)`. -/
theorem stirling2_precondition_failure_witness :
    ¬(1 ≤ 3 ∧ 3 ≤ 2) ∧ stirling2 2 3 = none :=
  ⟨by decide, stirling2_precondition_failure 2 3 (by decide)⟩

/-! ## Helper lemmas about `appendAt` -/

theorem appendAt_length (p : Partition) (j x : Nat) :
    (appendAt p j x).length = p.length := by
  induction p generalizing j with
  | nil => rfl
  | cons b bs ih => cases j <;> simp [appendAt, ih]

theorem appendAt_flatten_perm (p : Partition) (j x : Nat) (hj : j < p.length) :
    (appendAt p j x).flatten.Perm (x :: p.flatten) := by
  induction p generalizing j with
  | nil => simp at hj
  | cons b bs ih =>
    cases j with
    | zero =>
      simp only [appendAt, List.flatten_cons, List.append_assoc, List.singleton_append]
      exact List.perm_middle
    | succ j =>
      simp only [appendAt, List.flatten_cons]
      have h := ih j (by simpa using hj)
      exact (h.append_left b).trans List.perm_middle

theorem appendAt_mem (p : Partition) (j x : Nat) (b : Block)
    (hb : b ∈ appendAt p j x) : b ∈ p ∨ ∃ b₀ ∈ p, b = b₀ ++ [x] := by
  induction p generalizing j with
  | nil => simp [appendAt] at hb
  | cons c cs ih =>
    cases j with
    | zero =>
      rcases List.mem_cons.mp hb with h | h
      · exact Or.inr ⟨c, List.mem_cons_self _ _, h⟩
      · exact Or.inl (List.mem_cons_of_mem _ h)
    | succ j =>
      rcases List.mem_cons.mp hb with h | h
      · exact Or.inl (h ▸ List.mem_cons_self _ _)
      · rcases ih j h with h' | ⟨b₀, hb₀, rfl⟩
        · exact Or.inl (List.mem_cons_of_mem _ h')
        · exact Or.inr ⟨b₀, List.mem_cons_of_mem _ hb₀, rfl⟩

/-! ## The Stirling recurrence -/

/-- The Stirling-second-kind recurrence
`S(n+1, k+1) = S(n, k) + (k+1)·S(n, k+1)` with the usual base cases. -/
def stirlingRec : Nat → Nat → Nat
  | 0, 0 => 1
  | 0, _ + 1 => 0
  | _ + 1, 0 => 0
  | n + 1, k + 1 => stirlingRec n k + (k + 1) * stirlingRec n (k + 1)

theorem stirlingRec_zero_of_lt : ∀ n k : Nat, n < k → stirlingRec n k = 0 := by
  intro n
  induction n with
  | zero => intro k hk; cases k with
    | zero => omega
    | succ k => rfl
  | succ n ih =>
    intro k hk
    cases k with
    | zero => omega
    | succ k => simp [stirlingRec, ih k (by omega), ih (k + 1) (by omega)]

theorem stirlingRec_self : ∀ n : Nat, stirlingRec n n = 1 := by
  intro n
  induction n with
  | zero => rfl
  | succ n ih => simp [stirlingRec, ih, stirlingRec_zero_of_lt n (n + 1) (by omega)]

theorem stirlingRec_one (n : Nat) : stirlingRec (n + 1) 1 = 1 := by
  induction n with
  | zero => rfl
  | succ n ih => simpa [stirlingRec] using ih

/-! ## The enumerator's structural invariant -/

theorem flatten_map_singleton (l : List α) :
    (l.map (fun x => [x])).flatten = l := by
  induction l with
  | nil => rfl
  | cons x xs ih => simp [ih]

/-- Main invariant of the recursive enumerator: on `n ≥ k ≥ 1` it succeeds;
the result has exactly `stirlingRec n k` partitions; and every produced
partition has `k` blocks, its blocks concatenate to a permutation of
`range n`, and every block is non-empty and strictly ascending. -/
theorem stirling2_spec :
    ∀ n k : Nat, 1 ≤ k → k ≤ n → ∃ l, stirling2 n k = some l ∧
      l.length = stirlingRec n k ∧
      ∀ p ∈ l, p.length = k ∧ p.flatten.Perm (List.range n) ∧
        ∀ b ∈ p, b ≠ [] ∧ List.Sorted (· < ·) b := by
  intro n
  induction n with
  | zero => intro k hk1 hk0; omega
  | succ n ih =>
    intro k hk1 hkn
    by_cases hk_one : k = 1
    · subst hk_one
      refine ⟨[[List.range (n + 1)]], by simp [stirling2], ?_, ?_⟩
      · simp [stirlingRec_one]
      · intro p hp
        simp only [List.mem_singleton] at hp
        subst hp
        refine ⟨rfl, by simp, ?_⟩
        intro b hb
        simp only [List.mem_singleton] at hb
        subst hb
        exact ⟨by simp, List.pairwise_lt_range (n + 1)⟩
    · by_cases hk_diag : k = n + 1
      · subst hk_diag
        have hk0 : n + 1 ≠ 0 := by omega
        refine ⟨[(List.range (n + 1)).map (fun x => [x])],
          by simp [stirling2, hk_one], ?_, ?_⟩
        · simp [stirlingRec_self]
        · intro p hp
          simp only [List.mem_singleton] at hp
          subst hp
          refine ⟨by simp, by rw [flatten_map_singleton], ?_⟩
          intro b hb
          simp only [List.mem_map] at hb
          obtain ⟨x, _, rfl⟩ := hb
          exact ⟨by simp, List.sorted_singleton x⟩
      · -- interior case: 2 ≤ k ≤ n
        have hk2 : 2 ≤ k := by omega
        have hkn' : k ≤ n := by omega
        obtain ⟨a, ha, halen, hainv⟩ := ih (k - 1) (by omega) (by omega)
        obtain ⟨tmp, htmp, htlen, htinv⟩ := ih k hk1 hkn'
        have hk0 : k ≠ 0 := by omega
        refine ⟨(a.map (fun p => p ++ [[n]])) ++
          (List.range k).flatMap (fun j => tmp.map (fun p => appendAt p j n)),
          ?_, ?_, ?_⟩
        · simp [stirling2, hk0, hk_one, hk_diag, ha, htmp]
        · obtain ⟨k', rfl⟩ : ∃ k', k = k' + 1 := ⟨k - 1, by omega⟩
          simp only [List.length_append, List.length_map, List.length_flatMap,
            Function.comp_def, List.map_const', List.sum_replicate,
            List.length_range, smul_eq_mul, halen, htlen]
          simp [stirlingRec, Nat.add_sub_cancel]
        · intro p hp
          rcases List.mem_append.mp hp with hp | hp
          · -- partitions from stirling2 (n-1, k-1) with [n] as a new block
            obtain ⟨q, hq, rfl⟩ := List.mem_map.mp hp
            obtain ⟨hqlen, hqperm, hqblocks⟩ := hainv q hq
            refine ⟨by simp [hqlen]; omega, ?_, ?_⟩
            · rw [List.range_succ]
              simpa using hqperm.append_right [n]
            · intro b hb
              rcases List.mem_append.mp hb with hb | hb
              · exact hqblocks b hb
              · simp only [List.mem_singleton] at hb
                subst hb
                exact ⟨by simp, List.sorted_singleton n⟩
          · -- partitions from stirling2 (n-1, k) with n inserted in block j
            obtain ⟨j, hj, hp⟩ := List.mem_flatMap.mp hp
            obtain ⟨q, hq, rfl⟩ := List.mem_map.mp hp
            obtain ⟨hqlen, hqperm, hqblocks⟩ := htinv q hq
            have hjlt : j < q.length := by
              rw [hqlen]; exact List.mem_range.mp hj
            refine ⟨by rw [appendAt_length, hqlen], ?_, ?_⟩
            · refine ((appendAt_flatten_perm q j n hjlt).trans
                (hqperm.cons n)).trans ?_
              rw [List.range_succ]
              exact (List.perm_append_singleton n (List.range n)).symm
            · intro b hb
              rcases appendAt_mem q j n b hb with hb' | ⟨b₀, hb₀, rfl⟩
              · exact hqblocks b hb'
              · refine ⟨by simp, ?_⟩
                rw [List.Sorted, List.pairwise_append]
                refine ⟨(hqblocks b₀ hb₀).2, List.sorted_singleton n, ?_⟩
                intro y hy z hz
                simp only [List.mem_singleton] at hz
                subst hz
                have : y ∈ q.flatten := List.mem_flatten.mpr ⟨b₀, hb₀, hy⟩
                exact List.mem_range.mp (hqperm.mem_iff.mp this)

/-- **C4.** For `n ≥ k ≥ 1` the enumerator succeeds and every produced
partition has exactly `k` blocks, all non-empty, pairwise disjoint, whose
union is `{0, …, n-1}`. -/
theorem stirling2_partitions_valid (n k : Nat) (hk : 1 ≤ k) (hn : k ≤ n) :
    ∃ l, stirling2 n k = some l ∧ ∀ p ∈ l,
      p.length = k ∧ (∀ b ∈ p, b ≠ []) ∧ List.Pairwise List.Disjoint p ∧
      (∀ x, x ∈ p.flatten ↔ x ∈ List.range n) := by
  obtain ⟨l, hl, _, hinv⟩ := stirling2_spec n k hk hn
  refine ⟨l, hl, ?_⟩
  intro p hp
  obtain ⟨hlen, hperm, hblocks⟩ := hinv p hp
  have hnodup : p.flatten.Nodup :=
    hperm.nodup_iff.mpr (List.nodup_range n)
  refine ⟨hlen, fun b hb => (hblocks b hb).1,
    (List.nodup_flatten.mp hnodup).2, fun x => hperm.mem_iff⟩

/-- Witness for `stirling2_partitions_valid` at `(n, k) = (3, 2)`. -/
theorem stirling2_partitions_valid_witness :
    ∃ l, stirling2 3 2 = some l ∧ ∀ p ∈ l,
      p.length = 2 ∧ (∀ b ∈ p, b ≠ []) ∧ List.Pairwise List.Disjoint p ∧
      (∀ x, x ∈ p.flatten ↔ x ∈ List.range 3) :=
  stirling2_partitions_valid 3 2 (by decide) (by decide)

/-- **C8.** For `n ≥ k ≥ 1` every block of every produced partition is a
strictly ascending list of node indices. -/
theorem stirling2_blocks_ascending (n k : Nat) (hk : 1 ≤ k) (hn : k ≤ n) :
    ∃ l, stirling2 n k = some l ∧ ∀ p ∈ l, ∀ b ∈ p,
      List.Sorted (· < ·) b := by
  obtain ⟨l, hl, _, hinv⟩ := stirling2_spec n k hk hn
  exact ⟨l, hl, fun p hp b hb => ((hinv p hp).2.2 b hb).2⟩

/-- Witness for `stirling2_blocks_ascending` at `(n, k) = (4, 2)`. -/
theorem stirling2_blocks_ascending_witness :
    ∃ l, stirling2 4 2 = some l ∧ ∀ p ∈ l, ∀ b ∈ p,
      List.Sorted (· < ·) b :=
  stirling2_blocks_ascending 4 2 (by decide) (by decide)

/-! ## The closed-form Stirling count -/

/-- The alternating inclusion-exclusion sum
`Σ_{i=0}^{k} (−1)^i · C(k,i) · (k−i)^n` over the integers. -/
def stirling_sum (n k : Nat) : Int :=
  ∑ i ∈ Finset.range (k + 1),
    (-1 : Int) ^ i * (k.choose i : Int) * ((k - i : Nat) : Int) ^ n

theorem list_range_map_sum (f : Nat → Int) (m : Nat) :
    ((List.range m).map f).sum = ∑ i ∈ Finset.range m, f i := by
  induction m with
  | zero => simp
  | succ m ih =>
    rw [List.range_succ, Finset.sum_range_succ, List.map_append,
      List.sum_append, ih]
    simp

theorem stirling_sum_zero (k : Nat) :
    stirling_sum 0 k = if k = 0 then 1 else 0 := by
  rw [stirling_sum]
  simp only [pow_zero, mul_one]
  exact Int.alternating_sum_range_choose

theorem stirling_sum_split (n k : Nat) :
    (∑ i ∈ Finset.range (k + 1 + 1),
      (-1 : Int) ^ i * (k.choose i : Int) * ((k + 1 - i : Nat) : Int) ^ n)
      = stirling_sum n (k + 1) + stirling_sum n k := by
  rw [Finset.sum_range_succ' _ (k + 1)]
  rw [stirling_sum, stirling_sum, Finset.sum_range_succ' _ (k + 1)]
  simp only [Nat.add_sub_add_right, Nat.sub_zero, Nat.choose_zero_right,
    pow_zero, one_mul, Nat.cast_one]
  have hpascal : ∀ i ∈ Finset.range (k + 1),
      (-1 : Int) ^ (i + 1) * ((k + 1).choose (i + 1) : Int) * ((k - i : Nat) : Int) ^ n
        = (-1 : Int) ^ (i + 1) * (k.choose (i + 1) : Int) * ((k - i : Nat) : Int) ^ n
          - (-1 : Int) ^ i * (k.choose i : Int) * ((k - i : Nat) : Int) ^ n := by
    intro i _
    rw [Nat.choose_succ_succ]
    push_cast
    ring
  rw [Finset.sum_congr rfl hpascal, Finset.sum_sub_distrib]
  ring

theorem stirling_sum_rec (n k : Nat) :
    stirling_sum (n + 1) (k + 1)
      = (k + 1) * (stirling_sum n k + stirling_sum n (k + 1)) := by
  have hstep : stirling_sum (n + 1) (k + 1)
      = (k + 1) * ∑ i ∈ Finset.range (k + 1 + 1),
          (-1 : Int) ^ i * (k.choose i : Int) * ((k + 1 - i : Nat) : Int) ^ n := by
    rw [stirling_sum, Finset.mul_sum]
    refine Finset.sum_congr rfl ?_
    intro i _
    have hc : (k.choose i : Int) * ((k : Int) + 1)
        = ((k + 1).choose i : Int) * (((k + 1 - i : Nat)) : Int) := by
      exact_mod_cast Nat.choose_mul_succ_eq k i
    rw [pow_succ]
    linear_combination (-((-1 : Int) ^ i * ((k + 1 - i : Nat) : Int) ^ n)) * hc
  rw [hstep, stirling_sum_split]
  ring

/-- The inclusion-exclusion sum equals `k! · S(n,k)` for the recursively
defined Stirling numbers, for all `n, k`. -/
theorem stirling_sum_eq_factorial_mul :
    ∀ n k : Nat, stirling_sum n k
      = (Nat.factorial k : Int) * (stirlingRec n k : Int) := by
  intro n
  induction n with
  | zero =>
    intro k
    rw [stirling_sum_zero]
    cases k with
    | zero => simp [stirlingRec]
    | succ k => simp [stirlingRec]
  | succ n ih =>
    intro k
    cases k with
    | zero => simp [stirling_sum, stirlingRec]
    | succ k =>
      rw [stirling_sum_rec, ih k, ih (k + 1)]
      have : stirlingRec (n + 1) (k + 1)
          = stirlingRec n k + (k + 1) * stirlingRec n (k + 1) := rfl
      rw [this, Nat.factorial_succ]
      push_cast
      ring

/-- On its precondition, the closed-form `S` computes exactly the
recursively defined Stirling number. -/
theorem S_eq_stirlingRec (n k : Nat) (hk : 1 ≤ k) (hn : k ≤ n) :
    S n k = some ((stirlingRec n k : Nat) : Int) := by
  rw [S, if_pos ⟨by omega, by omega, hn⟩]
  congr 1
  have hsum : ((List.range (k + 1)).map (fun i =>
      (-1 : Int) ^ i * ((Nat.factorial k / Nat.factorial i /
        Nat.factorial (k - i) : Nat) : Int) * ((k - i : Nat) : Int) ^ n)).sum
      = stirling_sum n k := by
    rw [list_range_map_sum, stirling_sum]
    refine Finset.sum_congr rfl ?_
    intro i hi
    have hik : i ≤ k := by
      have := Finset.mem_range.mp hi
      omega
    rw [Nat.div_div_eq_div_mul, ← Nat.choose_eq_factorial_div_factorial hik]
  rw [hsum, stirling_sum_eq_factorial_mul,
    Int.mul_fdiv_cancel_left _
      (Int.natCast_ne_zero.mpr (Nat.factorial_ne_zero k))]

/-- **C3.** For `n ≥ k ≥ 1` the recursive enumerator succeeds, the
closed-form `S` succeeds, and the number of enumerated partitions equals
the closed-form Stirling count. -/
theorem enumerate_length_eq_count (n k : Nat) (hk : 1 ≤ k) (hn : k ≤ n) :
    ∃ l, stirling2 n k = some l ∧ S n k = some ((l.length : Nat) : Int) := by
  obtain ⟨l, hl, hlen, _⟩ := stirling2_spec n k hk hn
  exact ⟨l, hl, by rw [S_eq_stirlingRec n k hk hn, hlen]⟩

/-- Witness for `enumerate_length_eq_count` at `(n, k) = (5, 2)`:
the enumerator yields 15 partitions and `S(5,2) = 15`. -/
theorem enumerate_length_eq_count_witness :
    ∃ l, stirling2 5 2 = some l ∧ S 5 2 = some ((l.length : Nat) : Int) :=
  enumerate_length_eq_count 5 2 (by decide) (by decide)

/-! ## The round combinator: Cartesian power -/

theorem product_repeat_length (l : List α) (r : Nat) :
    (product_repeat l r).length = l.length ^ r := by
  induction r with
  | zero => rfl
  | succ r ih =>
    simp only [product_repeat, List.length_flatMap, Function.comp_def,
      List.length_map, ih, List.map_const', List.sum_replicate, smul_eq_mul]
    rw [pow_succ]
    ring

theorem mem_product_repeat (l : List α) (r : Nat) (t : List α) :
    t ∈ product_repeat l r ↔ t.length = r ∧ ∀ x ∈ t, x ∈ l := by
  induction r generalizing t with
  | zero =>
    simp only [product_repeat, List.mem_singleton]
    constructor
    · rintro rfl; simp
    · rintro ⟨ht, _⟩
      exact List.length_eq_zero.mp ht
  | succ r ih =>
    simp only [product_repeat, List.mem_flatMap, List.mem_map]
    constructor
    · rintro ⟨x, hx, t', ht', rfl⟩
      obtain ⟨hlen, hmem⟩ := (ih t').mp ht'
      refine ⟨by simp [hlen], ?_⟩
      intro y hy
      rcases List.mem_cons.mp hy with rfl | hy
      · exact hx
      · exact hmem y hy
    · rintro ⟨hlen, hmem⟩
      cases t with
      | nil => simp at hlen
      | cons y t' =>
        refine ⟨y, hmem y (List.mem_cons_self _ _), t', ?_, rfl⟩
        refine (ih t').mpr ⟨by simpa using hlen, ?_⟩
        intro z hz
        exact hmem z (List.mem_cons_of_mem _ hz)

theorem product_repeat_map (g : α → β) (l : List α) (r : Nat) :
    product_repeat (l.map g) r = (product_repeat l r).map (List.map g) := by
  induction r with
  | zero => rfl
  | succ r ih =>
    simp only [product_repeat, ih, List.flatMap_map, List.map_flatMap,
      List.map_map, Function.comp_def, List.map_cons]

theorem map_getD_range (l : List α) (d : α) :
    (List.range l.length).map (fun i => l.getD i d) = l := by
  induction l with
  | nil => rfl
  | cons x xs ih =>
    rw [List.length_cons, List.range_succ_eq_map, List.map_cons, List.map_map]
    have htail : (List.range xs.length).map ((fun i => (x :: xs).getD i d) ∘ Nat.succ)
        = (List.range xs.length).map (fun i => xs.getD i d) := by
      apply List.map_congr_left
      intro i _
      simp [Function.comp_def, List.getD_cons_succ]
    rw [htail, ih]
    simp

theorem sorted_lex_flatMap_cons (T : List (List Nat)) (xs : List Nat)
    (hT : List.Sorted (List.Lex (· < ·)) T) (hxs : List.Sorted (· < ·) xs) :
    List.Sorted (List.Lex (· < ·))
      (xs.flatMap (fun x => T.map (fun t => x :: t))) := by
  induction xs with
  | nil => simp
  | cons x xs' ih =>
    rw [List.flatMap_cons]
    rw [List.Sorted, List.pairwise_append]
    refine ⟨?_, ih hxs.of_cons, ?_⟩
    · exact hT.map _ (fun t₁ t₂ h => List.Lex.cons h)
    · intro u hu v hv
      obtain ⟨t₁, _, rfl⟩ := List.mem_map.mp hu
      obtain ⟨y, hy, hv2⟩ := List.mem_flatMap.mp hv
      obtain ⟨t₂, _, rfl⟩ := List.mem_map.mp hv2
      exact List.Lex.rel (List.rel_of_pairwise_cons hxs hy)

theorem product_repeat_range_sorted (b r : Nat) :
    List.Sorted (List.Lex (· < ·)) (product_repeat (List.range b) r) := by
  induction r with
  | zero => exact List.sorted_singleton []
  | succ r ih =>
    exact sorted_lex_flatMap_cons _ _ ih (List.pairwise_lt_range b)

theorem combine_partitions_with_leaders_length (c : Configs)
    (parts : List Partition) :
    (combine_partitions_with_leaders c parts).length
      = parts.length * (target_nodes c).length := by
  simp [combine_partitions_with_leaders, List.length_flatMap,
    Function.comp_def, List.map_const', List.sum_replicate, smul_eq_mul]

/-- **C5.** For every valid configuration, the round combinator yields
exactly the Cartesian power of the scenario sequence: it equals the image
of the lexicographically sorted, complete list of index tuples of length
`numberOfRounds`, its size is `|scenarios| ^ numberOfRounds`, and the
forecast `testcases_length` equals that size. -/
theorem round_combinator_correct (c : Configs) (hok : generator_ok c) :
    ∃ parts, make_partitions c = some parts ∧
      combine_scenarios_with_rounds c (combine_partitions_with_leaders c parts)
        = (product_repeat
            (List.range (combine_partitions_with_leaders c parts).length)
            c.number_of_rounds).map
            (fun ix => ix.map
              (fun i => (combine_partitions_with_leaders c parts).getD i (0, []))) ∧
      List.Sorted (List.Lex (· < ·))
        (product_repeat
          (List.range (combine_partitions_with_leaders c parts).length)
          c.number_of_rounds) ∧
      (∀ ix, ix ∈ product_repeat
          (List.range (combine_partitions_with_leaders c parts).length)
          c.number_of_rounds
        ↔ ix.length = c.number_of_rounds ∧
          ∀ i ∈ ix, i < (combine_partitions_with_leaders c parts).length) ∧
      (combine_scenarios_with_rounds c
          (combine_partitions_with_leaders c parts)).length
        = (combine_partitions_with_leaders c parts).length
            ^ c.number_of_rounds ∧
      testcases_length c
        = some (((combine_scenarios_with_rounds c
            (combine_partitions_with_leaders c parts)).length : Nat) : Int) := by
  have hk1 : 1 ≤ c.number_of_partitions := hok.1.2.1
  have hkn : c.number_of_partitions ≤ (nodes c).length := hok.2
  obtain ⟨parts, hparts, hplen, _⟩ := stirling2_spec _ _ hk1 hkn
  refine ⟨parts, hparts, ?_, ?_, ?_, ?_, ?_⟩
  · rw [combine_scenarios_with_rounds]
    conv_lhs =>
      rw [← map_getD_range (combine_partitions_with_leaders c parts) (0, [])]
    rw [product_repeat_map]
  · exact product_repeat_range_sorted _ _
  · intro ix
    rw [mem_product_repeat]
    simp [List.mem_range]
  · rw [combine_scenarios_with_rounds, product_repeat_length]
  · rw [testcases_length, S_eq_stirlingRec _ _ hk1 hkn, Option.map_some']
    congr 1
    rw [combine_scenarios_with_rounds, product_repeat_length,
      combine_partitions_with_leaders_length, hplen]
    push_cast
    ring

/-- Witness for `round_combinator_correct` at the configuration
`(nodes, partitions, rounds) = (4, 2, 1)`. -/
theorem round_combinator_correct_witness :
    ∃ parts, make_partitions ⟨4, 2, 1⟩ = some parts ∧
      combine_scenarios_with_rounds ⟨4, 2, 1⟩
          (combine_partitions_with_leaders ⟨4, 2, 1⟩ parts)
        = (product_repeat
            (List.range (combine_partitions_with_leaders ⟨4, 2, 1⟩ parts).length)
            (Configs.mk 4 2 1).number_of_rounds).map
            (fun ix => ix.map
              (fun i => (combine_partitions_with_leaders ⟨4, 2, 1⟩ parts).getD i (0, []))) ∧
      List.Sorted (List.Lex (· < ·))
        (product_repeat
          (List.range (combine_partitions_with_leaders ⟨4, 2, 1⟩ parts).length)
          (Configs.mk 4 2 1).number_of_rounds) ∧
      (∀ ix, ix ∈ product_repeat
          (List.range (combine_partitions_with_leaders ⟨4, 2, 1⟩ parts).length)
          (Configs.mk 4 2 1).number_of_rounds
        ↔ ix.length = (Configs.mk 4 2 1).number_of_rounds ∧
          ∀ i ∈ ix, i < (combine_partitions_with_leaders ⟨4, 2, 1⟩ parts).length) ∧
      (combine_scenarios_with_rounds ⟨4, 2, 1⟩
          (combine_partitions_with_leaders ⟨4, 2, 1⟩ parts)).length
        = (combine_partitions_with_leaders ⟨4, 2, 1⟩ parts).length
            ^ (Configs.mk 4 2 1).number_of_rounds ∧
      testcases_length ⟨4, 2, 1⟩
        = some (((combine_scenarios_with_rounds ⟨4, 2, 1⟩
            (combine_partitions_with_leaders ⟨4, 2, 1⟩ parts)).length : Nat) : Int) :=
  round_combinator_correct ⟨4, 2, 1⟩ (by decide)

/-- `product(s, repeat=r)` over an empty scenario list is empty whenever
`r ≥ 1`. -/
theorem product_repeat_nil (r : Nat) (hr : 1 ≤ r) :
    product_repeat ([] : List α) r = [] := by
  cases r with
  | zero => omega
  | succ r => rfl

/-- **C9.** With the default filter (Python `bool`), every generated
testcase is accepted, so filtering removes nothing. -/
theorem default_filter_accepts_all (c : Configs) (hok : generator_ok c) :
    ∃ tc, testcases_seq c = some tc ∧
      (∀ t ∈ tc, default_filter t = true) ∧
      tc.filter default_filter = tc := by
  obtain ⟨parts, hparts, _, _⟩ := stirling2_spec _ _ hok.1.2.1 hok.2
  have hall : ∀ t ∈ combine_scenarios_with_rounds c
      (combine_partitions_with_leaders c parts), default_filter t = true := by
    intro t ht
    rw [combine_scenarios_with_rounds] at ht
    obtain ⟨hlen, _⟩ := (mem_product_repeat _ _ t).mp ht
    have hr : 1 ≤ c.number_of_rounds := hok.1.2.2
    have : t ≠ [] := by
      intro h
      rw [h] at hlen
      simp at hlen
      omega
    simp [default_filter, List.isEmpty_iff, this]
  refine ⟨_, ?_, hall, List.filter_eq_self.mpr hall⟩
  rw [testcases_seq, make_partitions, hparts, Option.map_some']

/-- Witness for `default_filter_accepts_all` at `(4, 2, 1)`. -/
theorem default_filter_accepts_all_witness :
    ∃ tc, testcases_seq ⟨4, 2, 1⟩ = some tc ∧
      (∀ t ∈ tc, default_filter t = true) ∧
      tc.filter default_filter = tc :=
  default_filter_accepts_all ⟨4, 2, 1⟩ (by decide)

/-- **C10.** With `numberOfNodes ≤ 3` (so `f = 0`) and
`numberOfPartitions ≤ numberOfNodes`, the generator constructor succeeds,
but the target range is empty, the scenario sequence is empty, the
forecast is 0 and no testcase is generated at all. -/
theorem small_nodes_degenerate (c : Configs) (hok : configs_ok c)
    (h3 : c.number_of_nodes ≤ 3)
    (hp : c.number_of_partitions ≤ c.number_of_nodes) :
    generator_ok c ∧ gen_f c = 0 ∧ target_nodes c = [] ∧
    (∀ parts, combine_partitions_with_leaders c parts = []) ∧
    testcases_length c = some 0 ∧
    testcases_seq c = some [] := by
  have hf : gen_f c = 0 := by
    rw [gen_f]
    exact Nat.div_eq_of_lt (by omega)
  have hlen : (nodes c).length = c.number_of_nodes := by
    simp [nodes, hf]
  have hok2 : generator_ok c := ⟨hok, by rw [hlen]; exact hp⟩
  have htarget : target_nodes c = [] := by
    rw [target_nodes, hf, List.take_zero]
  have hcomb : ∀ parts, combine_partitions_with_leaders c parts = [] := by
    intro parts
    simp [combine_partitions_with_leaders, htarget]
  have hk1 : 1 ≤ c.number_of_partitions := hok.2.1
  have hkn : c.number_of_partitions ≤ (nodes c).length := hok2.2
  have hr : 0 < c.number_of_rounds := hok.2.2
  refine ⟨hok2, hf, htarget, hcomb, ?_, ?_⟩
  · rw [testcases_length, S_eq_stirlingRec _ _ hk1 hkn, Option.map_some']
    rw [htarget]
    simp [zero_pow (show c.number_of_rounds ≠ 0 by omega)]
  · obtain ⟨parts, hparts, _, _⟩ := stirling2_spec _ _ hk1 hkn
    rw [testcases_seq, make_partitions, hparts, Option.map_some']
    rw [hcomb parts, combine_scenarios_with_rounds,
      product_repeat_nil _ hr]

/-- Witness for `small_nodes_degenerate` at `(3, 2, 1)`. -/
theorem small_nodes_degenerate_witness :
    generator_ok ⟨3, 2, 1⟩ ∧ gen_f ⟨3, 2, 1⟩ = 0 ∧
    target_nodes ⟨3, 2, 1⟩ = [] ∧
    (∀ parts, combine_partitions_with_leaders ⟨3, 2, 1⟩ parts = []) ∧
    testcases_length ⟨3, 2, 1⟩ = some 0 ∧
    testcases_seq ⟨3, 2, 1⟩ = some [] :=
  small_nodes_degenerate ⟨3, 2, 1⟩ (by decide) (by decide) (by decide)

/-! ## The shard distributor: no loss, no duplication -/

theorem flatten_map_ite_cons (g : Nat → List α) (x : α) (j : Nat) :
    ∀ m, j < m →
      (((List.range m).map
        (fun i => if i = j then x :: g i else g i)).flatten).Perm
        (x :: ((List.range m).map g).flatten) := by
  intro m
  induction m with
  | zero => omega
  | succ m ih =>
    intro hj
    rw [List.range_succ, List.map_append, List.map_append,
      List.flatten_append, List.flatten_append]
    by_cases hjm : m = j
    · subst hjm
      have hmap : (List.range m).map (fun i => if i = m then x :: g i else g i)
          = (List.range m).map g := by
        apply List.map_congr_left
        intro i hi
        rw [if_neg (Nat.ne_of_lt (List.mem_range.mp hi))]
      rw [hmap]
      simp [List.perm_middle]
    · have hjm' : j < m := by omega
      have h2 : (if m = j then x :: g m else g m) = g m := if_neg hjm
      simp only [List.map_cons, List.map_nil, h2]
      exact ((ih hjm').append_right _).trans (by simp)

theorem flatten_mod_child_perm (n : Nat) (hn : 0 < n) :
    ∀ (l : List α) (pos : Nat),
      (((List.range n).map (fun i => mod_child n i l pos)).flatten).Perm l := by
  intro l
  induction l with
  | nil =>
    intro pos
    rw [List.perm_nil, List.flatten_eq_nil_iff]
    intro b hb
    obtain ⟨i, _, rfl⟩ := List.mem_map.mp hb
    rfl
  | cons x xs ih =>
    intro pos
    have hmap : (List.range n).map (fun i => mod_child n i (x :: xs) pos)
        = (List.range n).map (fun i =>
            if i = pos % n then x :: mod_child n i xs (pos + 1)
            else mod_child n i xs (pos + 1)) := by
      apply List.map_congr_left
      intro i _
      by_cases h : pos % n = i
      · rw [mod_child, if_pos h, if_pos h.symm]
      · rw [mod_child, if_neg h, if_neg (fun h' => h h'.symm)]
    rw [hmap]
    have hlt : pos % n < n := Nat.mod_lt _ hn
    exact (flatten_map_ite_cons _ x (pos % n) n hlt).trans ((ih (pos + 1)).cons x)

/-- One level of `more_itertools.distribute` covers the input exactly: the
concatenation of the children is a permutation of the input. -/
theorem flatten_distribute_perm (n : Nat) (hn : 0 < n) (l : List α) :
    ((distribute n l).flatten).Perm l :=
  flatten_mod_child_perm n hn l 0

theorem flatten_map_perm_of_forall (L : List (List α)) (f : List α → List α)
    (h : ∀ s ∈ L, (f s).Perm s) : ((L.map f).flatten).Perm L.flatten := by
  induction L with
  | nil => exact List.Perm.refl _
  | cons s L ih =>
    simp only [List.map_cons, List.flatten_cons]
    exact (h s (List.mem_cons_self _ _)).append
      (ih (fun s' hs' => h s' (List.mem_cons_of_mem _ hs')))

/-- **C2.** For every valid configuration and machine/worker counts
`M, W ≥ 1`, the two-level round-robin shard split covers the full testcase
sequence exactly once: concatenating, over all machines, the concatenation
of that machine's worker sub-sequences yields a permutation of the full
sequence — no testcase dropped, none duplicated. -/
theorem shard_cover_exact (c : Configs) (hok : generator_ok c)
    (M W : Nat) (hM : 0 < M) (hW : 0 < W) :
    ∃ tc, testcases_seq c = some tc ∧
      (((distribute M tc).map
        (fun share => (distribute W share).flatten)).flatten).Perm tc := by
  obtain ⟨parts, hparts, _, _⟩ := stirling2_spec _ _ hok.1.2.1 hok.2
  refine ⟨_, by rw [testcases_seq, make_partitions, hparts, Option.map_some'], ?_⟩
  refine (flatten_map_perm_of_forall _ _ ?_).trans (flatten_distribute_perm M hM _)
  intro share _
  exact flatten_distribute_perm W hW share

/-- Witness for `shard_cover_exact`: configuration `(4, 4, 1)` with 2
machines and 2 workers. -/
theorem shard_cover_exact_witness :
    ∃ tc, testcases_seq ⟨4, 4, 1⟩ = some tc ∧
      (((distribute 2 tc).map
        (fun share => (distribute 2 share).flatten)).flatten).Perm tc :=
  shard_cover_exact ⟨4, 4, 1⟩ (by decide) 2 2 (by decide) (by decide)

/-! ## The writer's per-file bound -/

/-- **C1 counterexample.** `_print` computes
`num_of_chunks = ceil(testcases_length / testcases_per_file)` but passes it
to `ichunked` as the *chunk size*.  With configuration `(4, 2, 1)`,
`testcases_per_file = 2`, one machine and one worker, the 15 generated
testcases are split into chunks of `ceil(15/2) = 8`: the first output file
holds 8 records and the second 7, both exceeding the configured bound of 2
testcases per file. -/
theorem testcases_per_file_exceeded :
    (run_files ⟨⟨4, 2, 1⟩, 2, 1, 1⟩ default_filter 1).map
        (fun ws => ws.map (fun files => files.map List.length))
      = some [[8, 7]] ∧ ¬(8 ≤ 2) := by
  constructor
  · decide
  · decide
